import Mathlib

/-!
Verification of the object-detection / tracking / MSD core of the
napari particle-tracking plugin, against its natural-language spec.

The Python sources embedded here are
`src/napari_particle_tracking/libs/_tracking.py` and
`src/napari_particle_tracking/libs/_object_detection.py`.
Numeric values are modelled over `ℚ`; a floating NaN is modelled as
`Option.none`.  External library primitives that are algorithmic black
boxes (trackpy's `link_df`, scipy's `curve_fit`, numpy's float `power`)
are taken as parameters of the embedded functions; well-specified numpy
and pandas array operations (`arange`, `histogram`, `nanmean`,
skipna sums, elementwise arithmetic) are translated directly.
-/

namespace NPT

instance {ε α : Type} [DecidableEq ε] [DecidableEq α] : DecidableEq (Except ε α) := fun
  | .error e, .error f => decidable_of_iff (e = f) (by simp)
  | .error _, .ok _ => isFalse (fun h => Except.noConfusion h)
  | .ok _, .error _ => isFalse (fun h => Except.noConfusion h)
  | .ok a, .ok b => decidable_of_iff (a = b) (by simp)

/-! ### `_tracking.py`: `track` (lines 6–42)

`track` delegates linking to the external `trackpy.link_df` (modelled as
the parameter `link_df`, returning the raw `particle` id of each input
row), renames the `particle` column to `track_id`, and then relabels:

    result["track_id"] = result["track_id"] - result["track_id"].min() + 1
-/

/-- Embeds `track` (lines 6–42): the `track_id` column produced for `points`,
with the external linker given as `link_df`.  `tp.quiet` and the
column rename are display/naming side effects with no bearing on the
id values. -/
def track {P : Type} (link_df : List P → List ℤ) (points : List P) : List ℤ :=
  let ids := link_df points
  let m := ids.foldl min (ids.headD 0)
  ids.map (fun x => x - m + 1)

/-- The relabeling the claim describes: raw ids replaced by their rank of
first appearance, 1-based (`{4,7,9} → {1,2,3}`).  Stated from the claim's
words, for comparison with `track`. -/
def denseRelabel (ids : List ℤ) : List ℤ :=
  ids.map (fun x => (ids.dedup.indexOf x : ℤ) + 1)

/-! ### `_tracking.py`: `histogram` (lines 45–64) -/

/-- Models `np.arange(start, stop, step)`: the values `start + k·step` for
`0 ≤ k < ⌈(stop − start)/step⌉`.  (For `step ≤ 0` with `stop > start`
this is empty, matching numpy's empty result for a negative step; the
`step = 0` error case never arises under the claims' positive-binsize
hypothesis.) -/
def arange (start stop step : ℚ) : List ℚ :=
  (List.range (⌈(stop - start) / step⌉.toNat)).map
    (fun k : ℕ => start + (k : ℚ) * step)

/-- Models the `np.histogram(data, bins)` bin counts: for edges `e₀ ≤ e₁ ≤ …`,
bin `i` counts samples in `[eᵢ, eᵢ₊₁)`, except the last bin which is
closed on the right. -/
def npHistogram (data : List ℚ) : List ℚ → List ℕ
  | a :: b :: rest =>
      (data.filter (fun x =>
        decide (a ≤ x) && (decide (x < b) || (rest.isEmpty && decide (x = b))))).length
        :: npHistogram data (b :: rest)
  | _ => []

inductive HistError where
  | rangeError
  deriving DecidableEq, Repr

/-- Embeds `histogram` (lines 45–64).  NaNs are outside the `ℚ` value model, so
the NaN-dropping branch is the identity here.  An empty input makes
`np.min` raise (caught and re-raised as-is by the `except` block), and a
non-positive binsize makes `bins` empty so that `bins[-1]` raises; both
surface as `HistError.rangeError`. -/
def histogram (data : List ℚ) (binsize : ℚ) :
    Except HistError (List ℕ × List ℚ × ℚ) :=
  match data with
  | [] => .error .rangeError
  | d0 :: rest =>
    let vmin := (d0 :: rest).foldl min d0
    let vmax0 := (d0 :: rest).foldl max d0
    let vmax := if vmin = vmax0 then vmin + 1 else vmax0
    let bins := arange vmin vmax binsize
    if bins.isEmpty then .error .rangeError
    else
      let edges := bins ++ [bins.getLastD 0 + binsize]
      .ok (npHistogram data edges, edges, binsize)

/-! ### `_tracking.py`: `msd` (lines 72–97)

A position matrix is a list of rows, each row a list of coordinates;
a NaN entry (trajectory gap) is `none`. -/

/-- Elementwise subtraction with NaN propagation (`NaN − y = x − NaN = NaN`). -/
def optSub (a b : Option ℚ) : Option ℚ :=
  match a, b with
  | some x, some y => some (x - y)
  | _, _ => none

/-- Squaring with NaN propagation. -/
def optSq (a : Option ℚ) : Option ℚ := a.map (fun x => x * x)

/-- Models `np.nanmean` of a 1-D array: mean of the non-NaN entries, NaN if all
entries are NaN. -/
def nanmean (l : List (Option ℚ)) : Option ℚ :=
  let v := l.reduceOption
  if v.isEmpty then none else some (v.sum / v.length)

/-- Models pandas `.sum(axis=1)` with default `skipna=True`: NaN entries count
as 0. -/
def nanSum (l : List (Option ℚ)) : ℚ := l.reduceOption.sum

inductive MsdError where
  /-- `ValueError("pos should have 2 columns")` -/
  | badColumns
  /-- `ValueError("pos should have at least 2 rows")` -/
  | badRows
  deriving DecidableEq, Repr

/-- The four per-lag aggregates `[<x>, <y>, <x²>, <y²>]` for lag `lt`:
`diff = pos[lt:] - pos[:-lt]` rowwise, then `np.nanmean(diff, axis=0)`
and `np.nanmean(diff**2, axis=0)` concatenated. -/
def msdRow (pos : List (List (Option ℚ))) (lt : ℕ) : List (Option ℚ) :=
  let n := pos.length
  let diffs := (List.range (n - lt)).map
    (fun j => List.zipWith optSub (pos.getD (lt + j) []) (pos.getD j []))
  [nanmean (diffs.map (fun r => r.getD 0 none)),
   nanmean (diffs.map (fun r => r.getD 1 none)),
   nanmean (diffs.map (fun r => optSq (r.getD 0 none))),
   nanmean (diffs.map (fun r => optSq (r.getD 1 none)))]

/-- Embeds `msd` (lines 72–97): the returned `result["msd"]` series, one value
per lag `τ = 1, …, min(limit, N−1)`.  The code builds the DataFrame rows
`[<x>, <y>, <x²>, <y²>]` (`msdRow`) and sums the last two columns with
pandas `.sum(1)`.  (`pos.ndim > 2` is never true of a 2-D matrix, so the
3-column branch is dead code and the column check fires first.) -/
def msd (pos : List (List (Option ℚ))) (limit : ℕ) : Except MsdError (List ℚ) :=
  if (pos.headD []).length ≠ 2 then .error .badColumns
  else if pos.length < 2 then .error .badRows
  else
    let lim := min limit (pos.length - 1)
    .ok ((List.range lim).map (fun k => nanSum ((msdRow pos (k + 1)).drop 2)))

/-- Axis `ax` of the position matrix as a list (NaN-preserving). -/
def column (pos : List (List (Option ℚ))) (ax : ℕ) : List (Option ℚ) :=
  pos.map (fun r => r.getD ax none)

/-- The claim's per-axis displacement at lag `τ`:
`pos[τ:] − pos[:-τ]` read on one axis (`pos[:-τ] = pos.take (N − τ)`). -/
def colDisplacement (pos : List (List (Option ℚ))) (ax τ : ℕ) :
    List (Option ℚ) :=
  List.zipWith optSub ((column pos ax).drop τ)
    ((column pos ax).take (pos.length - τ))

/-! ### `_tracking.py`: `msd_fit_function`, `line`, `basic_msd_fit`
(lines 100–116)

`np.power` on floats and `scipy.optimize.curve_fit` are external
numeric primitives, taken as the parameters `power` and `curveFit`. -/

/-- A candidate fit model: maps `x` and two parameters to a value (the
shape scipy's `curve_fit` expects here). -/
abbrev FitFn := ℚ → ℚ → ℚ → ℚ

/-- Embeds `msd_fit_function(delta, d, alfa) = (4*d) * np.power(delta, alfa)`
(lines 100–101), with `np.power` as the parameter `power`. -/
def msd_fit_function (power : ℚ → ℚ → ℚ) (delta d alfa : ℚ) : ℚ :=
  (4 * d) * power delta alfa

/-- Embeds `line(x, m, c) = m*x + c` (lines 103–104). -/
def line (x m c : ℚ) : ℚ := m * x + c

/-- The DataFrame returned by `basic_msd_fit`: index and the three
columns. -/
structure FitFrame where
  index : List ℚ
  alpha : List ℚ
  fit : List ℚ
  diffusion_coefficient : ℚ
  deriving DecidableEq, Repr

/-- Embeds `basic_msd_fit` (lines 106–116).  Here `curveFit fit_function x y p0 maxfev`
stands for `scipy.optimize.curve_fit(fit_function, x, y, p0=init,
maxfev=maxfev)[0]`, the fitted parameter pair. -/
def basic_msd_fit (power : ℚ → ℚ → ℚ)
    (curveFit : FitFn → List ℚ → List ℚ → ℚ × ℚ → ℕ → ℚ × ℚ)
    (msd_y : List ℚ) (delta : ℚ) (fit_function : FitFn) (maxfev : ℕ) :
    FitFrame :=
  let y := msd_y
  let x := (List.range y.length).map (fun i => ((i : ℚ) + 1) * delta)
  let init : ℚ × ℚ := (1 / 1000, 1 / 100)
  let best := curveFit fit_function x y init maxfev
  { index := x
    alpha := List.replicate y.length best.2
    fit := x.map (fun xi => msd_fit_function power xi best.1 best.2)
    diffusion_coefficient := best.1 }

/-! ### `_object_detection.py`

A 2-D array is a function `Fin h → Fin w → α`.  `measure.label`
(skimage) labels connected regions of equal nonzero value, with full
2-D connectivity (8-neighborhood) by default, assigning ids `1..K` in
scan order of first appearance; `regionprops_table` then emits one row
per object id present (ids are scanned in increasing order, missing ids
skipped), measured on the intensity image. -/

/-- A cell of a `h × w` frame. -/
abbrev Cell (h w : ℕ) := Fin h × Fin w

/-- Nearness `|a − b| ≤ 1` on ℕ. -/
def near (a b : ℕ) : Prop := a ≤ b + 1 ∧ b ≤ a + 1

instance (a b : ℕ) : Decidable (near a b) :=
  inferInstanceAs (Decidable (a ≤ b + 1 ∧ b ≤ a + 1))

/-- The 8-neighborhood (full 2-D connectivity): Chebyshev distance ≤ 1. -/
def touching {h w : ℕ} (c d : Cell h w) : Prop :=
  near c.1.val d.1.val ∧ near c.2.val d.2.val

instance {h w : ℕ} (c d : Cell h w) : Decidable (touching c d) :=
  inferInstanceAs (Decidable (near c.1.val d.1.val ∧ near c.2.val d.2.val))

theorem touching_symm {h w : ℕ} {c d : Cell h w} (h1 : touching c d) :
    touching d c :=
  ⟨⟨h1.1.2, h1.1.1⟩, ⟨h1.2.2, h1.2.1⟩⟩

/-- The adjacency `skimage.measure.label` connects: two distinct
neighboring cells carrying the same nonzero mask value. -/
def pixelGraph {h w : ℕ} (m : Fin h → Fin w → ℕ) : SimpleGraph (Cell h w) where
  Adj c d := c ≠ d ∧ m c.1 c.2 ≠ 0 ∧ m c.1 c.2 = m d.1 d.2 ∧ touching c d
  symm := by
    rintro c d ⟨hne, h0, heq, ht⟩
    exact ⟨hne.symm, heq ▸ h0, heq.symm, touching_symm ht⟩
  loopless := fun c hc => hc.1 rfl

instance {h w : ℕ} (m : Fin h → Fin w → ℕ) :
    DecidableRel (pixelGraph m).Adj := fun c d =>
  inferInstanceAs (Decidable
    (c ≠ d ∧ m c.1 c.2 ≠ 0 ∧ m c.1 c.2 = m d.1 d.2 ∧ touching c d))

/-- The adjacency the claim describes instead: neighboring foreground
cells regardless of their label values ("all label values a single
foreground").  Stated from the claim's words, for comparison. -/
def foregroundGraph {h w : ℕ} (m : Fin h → Fin w → ℕ) :
    SimpleGraph (Cell h w) where
  Adj c d := c ≠ d ∧ m c.1 c.2 ≠ 0 ∧ m d.1 d.2 ≠ 0 ∧ touching c d
  symm := by
    rintro c d ⟨hne, h0, h0', ht⟩
    exact ⟨hne.symm, h0', h0, touching_symm ht⟩
  loopless := fun c hc => hc.1 rfl

instance {h w : ℕ} (m : Fin h → Fin w → ℕ) :
    DecidableRel (foregroundGraph m).Adj := fun c d =>
  inferInstanceAs (Decidable
    (c ≠ d ∧ m c.1 c.2 ≠ 0 ∧ m d.1 d.2 ≠ 0 ∧ touching c d))

instance {V : Type} [Fintype V] [DecidableEq V] (G : SimpleGraph V)
    [DecidableRel G.Adj] : DecidableEq G.ConnectedComponent := fun a b =>
  Quot.recOnSubsingleton₂ a b (fun u v =>
    decidable_of_iff (G.Reachable u v) SimpleGraph.ConnectedComponent.eq.symm)

/-- Row-major scan order of all cells of a frame. -/
def scanCells (h w : ℕ) : List (Cell h w) :=
  (List.finRange h).flatMap (fun i => (List.finRange w).map (fun j => (i, j)))

/-- The connected components of the equal-value pixel graph, in scan
order of first appearance (the order in which `measure.label` assigns
ids `1..K`). -/
def componentsList {h w : ℕ} (m : Fin h → Fin w → ℕ) :
    List ((pixelGraph m).ConnectedComponent) :=
  (((scanCells h w).filter (fun c => decide (m c.1 c.2 ≠ 0))).map
    (pixelGraph m).connectedComponentMk).dedup

/-- Models `measure.label` (line 118): component id (1-based, in scan order of
first appearance) on foreground cells, 0 on background. -/
def measureLabel {h w : ℕ} (m : Fin h → Fin w → ℕ) : Fin h → Fin w → ℕ :=
  fun i j =>
    if m i j ≠ 0 then
      (componentsList m).indexOf ((pixelGraph m).connectedComponentMk (i, j)) + 1
    else 0

/-- The set of components that contain a foreground cell. -/
def foregroundComponents {h w : ℕ} (m : Fin h → Fin w → ℕ) :
    Finset ((pixelGraph m).ConnectedComponent) :=
  (Finset.univ.filter (fun c : Cell h w => m c.1 c.2 ≠ 0)).image
    (pixelGraph m).connectedComponentMk

/-- The claim's notion of component count: components of the
all-labels-as-one-foreground graph. -/
def singleForegroundComponentCount {h w : ℕ} (m : Fin h → Fin w → ℕ) : ℕ :=
  ((Finset.univ.filter (fun c : Cell h w => m c.1 c.2 ≠ 0)).image
    (foregroundGraph m).connectedComponentMk).card

/-- One `regionprops_table` row, restricted to the measured columns the
claims refer to (`label`, `area`, centroid, `mean_intensity`); the
remaining columns (`bbox`, extra intensity stats, `equivalent_diameter`,
`perimeter`, `solidity`) are tracked by name in `frame_columns` but
their values are not needed by any verified property. -/
structure Region where
  label : ℕ
  area : ℕ
  y : ℚ
  x : ℚ
  mean_intensity : ℚ
  deriving DecidableEq, Repr

/-- The cells carrying label value `ℓ` in a labeled frame. -/
def regionCells {h w : ℕ} (L : Fin h → Fin w → ℕ) (ℓ : ℕ) :
    Finset (Cell h w) :=
  Finset.univ.filter (fun c => L c.1 c.2 = ℓ)

/-- Largest label value present. -/
def maxLabel {h w : ℕ} (L : Fin h → Fin w → ℕ) : ℕ :=
  Finset.univ.sup (fun c : Cell h w => L c.1 c.2)

/-- The distinct positive labels, in increasing order (`regionprops`
walks object ids `1..max`, skipping absent ids). -/
def labelsOf {h w : ℕ} (L : Fin h → Fin w → ℕ) : List ℕ :=
  ((List.range (maxLabel L)).map (fun k => k + 1)).filter
    (fun ℓ => decide (∃ c : Cell h w, L c.1 c.2 = ℓ))

/-- Models `measure.regionprops_table(labels, intensity_image=image, ...)`
(lines 63–65): one row per present positive label, in increasing label
order. -/
def regionprops_table {h w : ℕ} (L : Fin h → Fin w → ℕ)
    (img : Fin h → Fin w → ℚ) : List Region :=
  (labelsOf L).map (fun ℓ =>
    { label := ℓ
      area := (regionCells L ℓ).card
      y := (∑ c ∈ regionCells L ℓ, (c.1.val : ℚ)) / (regionCells L ℓ).card
      x := (∑ c ∈ regionCells L ℓ, (c.2.val : ℚ)) / (regionCells L ℓ).card
      mean_intensity :=
        (∑ c ∈ regionCells L ℓ, img c.1 c.2) / (regionCells L ℓ).card })

/-- The derived column `result["radius"] = np.sqrt(result["area"]/np.pi)`
(line 68). -/
noncomputable def radius (r : Region) : ℝ :=
  Real.sqrt ((r.area : ℝ) / Real.pi)

/-- One row of a frame's result table: the `frame` column (line 80) plus
the measured region columns. -/
structure FrameRow where
  frame : ℕ
  region : Region
  deriving DecidableEq, Repr

/-- The rows produced by the measurement body of
`get_frame_regions_properties` for one (already labeled) frame. -/
def frame_rows {h w : ℕ} (frame : ℕ) (img : Fin h → Fin w → ℚ)
    (L : Fin h → Fin w → ℕ) : List FrameRow :=
  (regionprops_table L img).map (fun r => ⟨frame, r⟩)

/-- Expands `regionprops_table` column names: `centroid` expands to
`centroid-0, centroid-1` and `bbox` to `bbox-0..3` on 2-D input; scalar
properties keep their name. -/
def expandProp (p : String) : List String :=
  if p = "centroid" then ["centroid-0", "centroid-1"]
  else if p = "bbox" then ["bbox-0", "bbox-1", "bbox-2", "bbox-3"]
  else [p]

/-- Embeds `_defatul_properties` (lines 14–25). -/
def defaultProperties : List String :=
  ["label", "area", "centroid", "mean_intensity", "max_intensity",
   "min_intensity", "bbox", "equivalent_diameter", "perimeter", "solidity"]

/-- The rename of lines 70–78 for the 2-D case
(`centroid-0 → y`, `centroid-1 → x`). -/
def rename2D (s : String) : String :=
  if s = "centroid-0" then "y" else if s = "centroid-1" then "x" else s

/-- The column order of a frame's result table: regionprops columns in
property order, then the appended `radius` (line 68), centroids renamed
(lines 70–78), the appended `frame` (line 80), and finally the reorder
`cols = [cols[-1], *cols[:-1]]` (lines 82–84). -/
def frame_columns : List String :=
  let base := defaultProperties.flatMap expandProp
  let withRadius := base ++ ["radius"]
  let renamed := withRadius.map rename2D
  let withFrame := renamed ++ ["frame"]
  withFrame.getLast?.toList ++ withFrame.dropLast

/-- An n-dimensional numpy array: its shape and its row-major data. -/
structure NDArr (α : Type) where
  shape : List ℕ
  val : List α
  deriving DecidableEq, Repr

/-- Models `ndarray.ndim`. -/
def NDArr.ndim {α : Type} (a : NDArr α) : ℕ := a.shape.length

/-- Reads a shape-`[h,w]` array as a 2-D grid. -/
def NDArr.grid2D {α : Type} (a : NDArr α) (d : α) (h w : ℕ) :
    Fin h → Fin w → α :=
  fun i j => a.val.getD (i.val * w + j.val) d

/-- Outcome of `get_frame_regions_properties`: `warned` is the
`warnings.warn(...); return` path (returns `None`); `measured` carries
the result table; `libraryError` models `skimage` raising on inputs the
guard does not catch (non-2-D label input reaching `regionprops_table`,
or mismatched shapes). -/
inductive FrameOutcome where
  | warned
  | measured (rows : List FrameRow)
  | libraryError
  deriving DecidableEq, Repr

/-- Embeds `get_frame_regions_properties` (lines 28–85).  The guard warns and
returns `None` only for `ndim > 2` (lines 55–61); what remains is handed
to `regionprops_table`. -/
def get_frame_regions_properties (frame : ℕ) (image : NDArr ℚ)
    (labels : NDArr ℕ) : FrameOutcome :=
  if 2 < image.ndim then .warned
  else if 2 < labels.ndim then .warned
  else
    match image.shape, labels.shape with
    | [hi, wi], [hl, wl] =>
        if hi = hl ∧ wi = wl then
          .measured (frame_rows frame (image.grid2D 0 hi wi)
            (labels.grid2D 0 hi wi))
        else .libraryError
    | _, _ => .libraryError

/-- A stack argument of `get_timeseries_regions_properties`: either a
single 2-D array (the `ndim == 2` branch wraps it with
`np.expand_dims(axis=0)`) or a `[T,H,W]` stack of frames. -/
inductive Stack (α : Type) (h w : ℕ) where
  | single (g : Fin h → Fin w → α)
  | frames (gs : List (Fin h → Fin w → α))

/-- The frames iterated by the `for` loop (after the `expand_dims`
normalization of lines 112–115). -/
def Stack.toFrames {α : Type} {h w : ℕ} : Stack α h w → List (Fin h → Fin w → α)
  | .single g => [g]
  | .frames gs => gs

inductive PyError where
  /-- `UnboundLocalError`: the loop body never ran, so `result` was
  never assigned and `return result` fails. -/
  | unboundLocalError
  deriving DecidableEq, Repr

/-- One iteration of the timeseries loop (lines 117–131): the first
iteration binds `result` to the frame's table, later iterations
`pd.concat` onto it. -/
def concatStep {α β : Type} (f : α → List β) :
    Option (List β) → α → Option (List β) :=
  fun acc p =>
    match acc with
    | none => some (f p)
    | some t => some (t ++ f p)

/-- Embeds `get_timeseries_regions_properties` (lines 88–133): zip the two
stacks (`zip` stops at the shorter), relabel each frame's mask with
`measure.label`, measure it with the frame's 0-based index as `frame`,
and `pd.concat` the per-frame tables in loop order; the accumulator
`result` is `none` until the first iteration binds it. -/
def get_timeseries_regions_properties {h w : ℕ} (images : Stack ℚ h w)
    (masks : Stack ℕ h w) : Except PyError (List FrameRow) :=
  let pairs := images.toFrames.zip masks.toFrames
  match pairs.enum.foldl
      (concatStep (fun p => frame_rows p.1 p.2.1 (measureLabel p.2.2)))
      none with
  | none => .error .unboundLocalError
  | some t => .ok t

/-! ### Helper lemmas on `foldl min` (the pandas `.min()` of a column) -/

theorem foldl_min_le {α : Type} [LinearOrder α] :
    ∀ (l : List α) (a : α), l.foldl min a ≤ a
  | [], _ => le_refl _
  | b :: t, a => le_trans (foldl_min_le t (min a b)) (min_le_left a b)

theorem foldl_min_le_mem {α : Type} [LinearOrder α] :
    ∀ (l : List α) (a : α), ∀ x ∈ l, l.foldl min a ≤ x := by
  intro l
  induction l with
  | nil => intro a x hx; cases hx
  | cons b t ih =>
    intro a x hx
    rcases List.mem_cons.mp hx with rfl | hx
    · exact le_trans (foldl_min_le t (min a x)) (min_le_right a x)
    · exact ih (min a b) x hx

theorem foldl_min_mem {α : Type} [LinearOrder α] :
    ∀ (l : List α) (a : α), l.foldl min a = a ∨ l.foldl min a ∈ l := by
  intro l
  induction l with
  | nil => intro a; exact Or.inl rfl
  | cons b t ih =>
    intro a
    rcases ih (min a b) with h | h
    · rcases min_cases a b with ⟨hm, _⟩ | ⟨hm, _⟩
      · exact Or.inl (by rw [List.foldl_cons, h, hm])
      · exact Or.inr (by rw [List.foldl_cons, h, hm]; exact List.mem_cons_self _ _)
    · exact Or.inr (List.mem_cons_of_mem _ h)

end NPT

namespace NPT

/-- C1, counterexample: the relabeling `track` performs is
`id − min + 1`, not the dense first-appearance renumbering the claim
describes: raw linker ids `[4, 7, 9]` come out as `[1, 4, 6]`, not
`[1, 2, 3]`, so the output is not a contiguous range starting at 1. -/
theorem track_relabel_not_dense_cex :
    track (fun _ => [4, 7, 9]) [()] = [1, 4, 6] ∧
    denseRelabel [4, 7, 9] = [1, 2, 3] ∧
    track (fun _ => [4, 7, 9]) [()] ≠ denseRelabel [4, 7, 9] := by
  refine ⟨by decide, by decide, by decide⟩

/-- C1, amended: for every non-empty raw id column produced by the
linker, `track` shifts all ids by `1 − min`: the minimum output id is
exactly 1, every output id is positive, and all pairwise differences
(hence relative order and gaps) of the raw ids are preserved.  The
output is a contiguous range `1..n` only when the raw ids already form
a contiguous range. -/
theorem track_relabel_min_shift {P : Type} (link_df : List P → List ℤ)
    (points : List P) (hne : link_df points ≠ []) :
    (∀ x ∈ track link_df points, 1 ≤ x) ∧
    (1 ∈ track link_df points) ∧
    (track link_df points).length = (link_df points).length ∧
    (∀ (i j : ℕ) (hi : i < (link_df points).length)
        (hj : j < (link_df points).length),
      (track link_df points).getD i 0 - (track link_df points).getD j 0
        = (link_df points).getD i 0 - (link_df points).getD j 0) := by
  have htr : track link_df points
      = (link_df points).map
          (fun x => x - (link_df points).foldl min ((link_df points).headD 0) + 1) := rfl
  have hlen : (track link_df points).length = (link_df points).length := by
    rw [htr, List.length_map]
  refine ⟨?_, ?_, hlen, ?_⟩
  · intro x hx
    rw [htr] at hx
    rcases List.mem_map.mp hx with ⟨y, hy, rfl⟩
    have := foldl_min_le_mem (link_df points) ((link_df points).headD 0) y hy
    omega
  · have hmem : (link_df points).foldl min ((link_df points).headD 0)
        ∈ link_df points := by
      rcases foldl_min_mem (link_df points) ((link_df points).headD 0) with h | h
      · rw [h, List.headD_eq_head?, List.head?_eq_head hne, Option.getD_some]
        exact List.head_mem hne
      · exact h
    have hmm := List.mem_map_of_mem
      (fun x => x - (link_df points).foldl min ((link_df points).headD 0) + 1) hmem
    rw [← htr] at hmm
    simpa using hmm
  · intro i j hi hj
    have hgi : (track link_df points).getD i 0
        = (link_df points).getD i 0
            - (link_df points).foldl min ((link_df points).headD 0) + 1 := by
      rw [htr, List.getD_eq_getElem _ _ (by simpa using hi),
        List.getD_eq_getElem _ _ hi, List.getElem_map]
    have hgj : (track link_df points).getD j 0
        = (link_df points).getD j 0
            - (link_df points).foldl min ((link_df points).headD 0) + 1 := by
      rw [htr, List.getD_eq_getElem _ _ (by simpa using hj),
        List.getD_eq_getElem _ _ hj, List.getElem_map]
    rw [hgi, hgj]; ring

/-- C1, witness for `track_relabel_min_shift` at the raw ids `[4, 7, 9]`. -/
theorem track_relabel_min_shift_witness :
    ((fun (_ : List Unit) => [(4 : ℤ), 7, 9]) [()] ≠ []) ∧
    ((∀ x ∈ track (fun (_ : List Unit) => [(4 : ℤ), 7, 9]) [()], 1 ≤ x) ∧
    (1 ∈ track (fun (_ : List Unit) => [(4 : ℤ), 7, 9]) [()]) ∧
    (track (fun (_ : List Unit) => [(4 : ℤ), 7, 9]) [()]).length
      = ((fun (_ : List Unit) => [(4 : ℤ), 7, 9]) [()]).length ∧
    (∀ (i j : ℕ)
        (hi : i < ((fun (_ : List Unit) => [(4 : ℤ), 7, 9]) [()]).length)
        (hj : j < ((fun (_ : List Unit) => [(4 : ℤ), 7, 9]) [()]).length),
      (track (fun (_ : List Unit) => [(4 : ℤ), 7, 9]) [()]).getD i 0
          - (track (fun (_ : List Unit) => [(4 : ℤ), 7, 9]) [()]).getD j 0
        = ((fun (_ : List Unit) => [(4 : ℤ), 7, 9]) [()]).getD i 0
          - ((fun (_ : List Unit) => [(4 : ℤ), 7, 9]) [()]).getD j 0)) :=
  ⟨by decide, track_relabel_min_shift _ [()] (by decide)⟩

/-! ### Helper lemmas for C2: `foldl max`, `arange`, bin-count sums -/

theorem le_foldl_max {α : Type} [LinearOrder α] :
    ∀ (l : List α) (a : α), a ≤ l.foldl max a
  | [], _ => le_refl _
  | b :: t, a => le_trans (le_max_left a b) (le_foldl_max t (max a b))

theorem mem_le_foldl_max {α : Type} [LinearOrder α] :
    ∀ (l : List α) (a : α), ∀ x ∈ l, x ≤ l.foldl max a := by
  intro l
  induction l with
  | nil => intro a x hx; cases hx
  | cons b t ih =>
    intro a x hx
    rcases List.mem_cons.mp hx with rfl | hx
    · exact le_trans (le_max_right a x) (le_foldl_max t (max a x))
    · exact ih (max a b) x hx

theorem foldl_max_mem {α : Type} [LinearOrder α] :
    ∀ (l : List α) (a : α), l.foldl max a = a ∨ l.foldl max a ∈ l := by
  intro l
  induction l with
  | nil => intro a; exact Or.inl rfl
  | cons b t ih =>
    intro a
    rcases ih (max a b) with h | h
    · rcases max_cases a b with ⟨hm, _⟩ | ⟨hm, _⟩
      · exact Or.inl (by rw [List.foldl_cons, h, hm])
      · exact Or.inr (by rw [List.foldl_cons, h, hm]; exact List.mem_cons_self _ _)
    · exact Or.inr (List.mem_cons_of_mem _ h)

theorem arange_eq_map (s t p : ℚ) :
    arange s t p
      = (List.range (⌈(t - s) / p⌉.toNat)).map (fun k : ℕ => s + (k : ℚ) * p) :=
  rfl

theorem length_filter_cons_split (p : ℚ → Bool) (x : ℚ) (d : List ℚ) :
    (List.filter p (x :: d)).length
      = (List.filter p [x]).length + (List.filter p d).length := by
  by_cases h : p x <;> simp [List.filter_cons, h] <;> omega

theorem sum_npHistogram_cons (x : ℚ) (d : List ℚ) :
    ∀ es : List ℚ, (npHistogram (x :: d) es).sum
      = (npHistogram [x] es).sum + (npHistogram d es).sum := by
  intro es
  induction es with
  | nil => simp [npHistogram]
  | cons a t ih =>
    cases t with
    | nil => simp [npHistogram]
    | cons b r =>
      simp only [npHistogram, List.sum_cons]
      rw [length_filter_cons_split, ih]
      omega

theorem sum_npHistogram_single_zero (x : ℚ) :
    ∀ (es : List ℚ) (a : ℚ), List.Chain' (· < ·) (a :: es) → x < a →
      (npHistogram [x] (a :: es)).sum = 0 := by
  intro es
  induction es with
  | nil => intro a _ _; simp [npHistogram]
  | cons b r ih =>
    intro a hchain hxa
    have hab : a < b := List.chain'_cons.mp hchain |>.1
    have hch : List.Chain' (· < ·) (b :: r) := List.chain'_cons.mp hchain |>.2
    simp only [npHistogram, List.sum_cons]
    rw [ih b hch (lt_trans hxa hab)]
    have : ¬(a ≤ x) := not_le.mpr hxa
    simp [List.filter, this]

theorem npHistogram_cons_cons (data : List ℚ) (a b : ℚ) (rest : List ℚ) :
    npHistogram data (a :: b :: rest)
      = (data.filter (fun x =>
          decide (a ≤ x)
            && (decide (x < b) || (rest.isEmpty && decide (x = b))))).length
        :: npHistogram data (b :: rest) := rfl

theorem length_filter_single (p : ℚ → Bool) (x : ℚ) :
    (List.filter p [x]).length = if p x then 1 else 0 := by
  by_cases h : p x <;> simp [List.filter_cons, h]

theorem sum_npHistogram_single_one (x : ℚ) :
    ∀ (es : List ℚ) (a L : ℚ), es.getLast? = some L →
      List.Chain' (· < ·) (a :: es) → a ≤ x → x ≤ L →
      (npHistogram [x] (a :: es)).sum = 1 := by
  intro es
  induction es with
  | nil => intro a L hL; cases hL
  | cons b r ih =>
    intro a L hL hchain hax hxL
    have hab : a < b := List.chain'_cons.mp hchain |>.1
    have hch : List.Chain' (· < ·) (b :: r) := List.chain'_cons.mp hchain |>.2
    cases r with
    | nil =>
      have hLb : b = L := by simpa using hL
      subst hLb
      have hcond : (decide (a ≤ x)
          && (decide (x < b) || (List.isEmpty ([] : List ℚ) && decide (x = b))))
            = true := by
        rcases lt_or_eq_of_le hxL with h | h
        · simp [hax, h]
        · subst h; simp [hax]
      rw [npHistogram_cons_cons, List.sum_cons, length_filter_single, hcond,
        if_pos rfl]
      simp [npHistogram]
    | cons c r' =>
      have hLr : (c :: r').getLast? = some L := by
        rw [← hL, List.getLast?_cons_cons]
      rcases lt_or_ge x b with hxb | hbx
      · -- x falls in the first bin; all later bins count it zero times
        have hz := sum_npHistogram_single_zero x (c :: r') b hch hxb
        have hcond : (decide (a ≤ x)
            && (decide (x < b) || ((c :: r').isEmpty && decide (x = b))))
              = true := by
          simp [hax, hxb]
        rw [npHistogram_cons_cons, List.sum_cons, length_filter_single, hcond,
          if_pos rfl, hz]
      · -- x is at or past the second edge; it lies in the tail bins exactly once
        have h1 := ih b L hLr hch hbx hxL
        have hcond : (decide (a ≤ x)
            && (decide (x < b) || ((c :: r').isEmpty && decide (x = b))))
              = false := by
          simp [not_lt.mpr hbx]
        rw [npHistogram_cons_cons, List.sum_cons, length_filter_single, hcond,
          if_neg (by simp), h1]

theorem sum_npHistogram_nil : ∀ es : List ℚ, (npHistogram [] es).sum = 0 := by
  intro es
  induction es with
  | nil => simp [npHistogram]
  | cons a t ih =>
    cases t with
    | nil => simp [npHistogram]
    | cons b r =>
      simp only [npHistogram, List.sum_cons, List.filter_nil, List.length_nil]
      simpa using ih

theorem sum_npHistogram_eq_length (data : List ℚ) (es : List ℚ) (a L : ℚ)
    (hL : es.getLast? = some L) (hchain : List.Chain' (· < ·) (a :: es))
    (hall : ∀ x ∈ data, a ≤ x ∧ x ≤ L) :
    (npHistogram data (a :: es)).sum = data.length := by
  induction data with
  | nil => exact sum_npHistogram_nil (a :: es)
  | cons x d ih =>
    rw [sum_npHistogram_cons x d (a :: es),
      sum_npHistogram_single_one x es a L hL hchain
        (hall x (List.mem_cons_self x d)).1 (hall x (List.mem_cons_self x d)).2,
      ih (fun y hy => hall y (List.mem_cons_of_mem x hy))]
    simp [Nat.add_comm]

theorem edges_spec (s t p : ℚ) (hst : s < t) (hp : 0 < p) :
    ∃ es E,
      arange s t p ≠ [] ∧
      arange s t p ++ [(arange s t p).getLastD 0 + p] = s :: es ∧
      es.getLast? = some E ∧
      (s :: es).getLast? = some E ∧
      List.Chain' (fun a b => b = a + p) (s :: es) ∧
      t ≤ E ∧ E < t + p := by
  have hceil : (0 : ℤ) < ⌈(t - s) / p⌉ :=
    Int.ceil_pos.mpr (div_pos (sub_pos.mpr hst) hp)
  set n := (⌈(t - s) / p⌉).toNat with hn
  have hn1 : 1 ≤ n := by omega
  have hcast : ((n : ℚ)) = ((⌈(t - s) / p⌉ : ℤ) : ℚ) := by
    have h0 := Int.toNat_of_nonneg hceil.le
    rw [hn]
    exact_mod_cast congrArg (fun z : ℤ => (z : ℚ)) h0
  have hlen : (arange s t p).length = n := by
    rw [arange_eq_map, List.length_map, List.length_range]
  have hane : arange s t p ≠ [] := by
    intro h
    rw [h] at hlen
    simp at hlen
    omega
  have hlast? : (arange s t p).getLast? = some (s + ((n - 1 : ℕ) : ℚ) * p) := by
    rw [List.getLast?_eq_getElem?, hlen, arange_eq_map, List.getElem?_map,
      List.getElem?_range (by omega : n - 1 < n)]
    rfl
  have hlastD : (arange s t p).getLastD 0 = s + ((n - 1 : ℕ) : ℚ) * p := by
    rw [List.getLastD_eq_getLast?, hlast?]
    rfl
  have hEdges : arange s t p ++ [(arange s t p).getLastD 0 + p]
      = (List.range (n + 1)).map (fun k : ℕ => s + (k : ℚ) * p) := by
    rw [hlastD, arange_eq_map, List.range_succ, List.map_append]
    congr 1
    simp only [List.map_cons, List.map_nil, List.cons.injEq, and_true]
    push_cast [Nat.cast_sub hn1]
    ring
  have hdec : arange s t p ++ [(arange s t p).getLastD 0 + p]
      = s :: (List.range n).map (fun k : ℕ => s + ((k + 1 : ℕ) : ℚ) * p) := by
    rw [hEdges, List.range_succ_eq_map, List.map_cons, List.map_map]
    congr 1
    simp
  have hesl : ((List.range n).map (fun k : ℕ => s + ((k + 1 : ℕ) : ℚ) * p)).getLast?
      = some (s + (n : ℚ) * p) := by
    rw [List.getLast?_eq_getElem?, List.length_map, List.length_range,
      List.getElem?_map, List.getElem?_range (by omega : n - 1 < n)]
    have h1 : n - 1 + 1 = n := by omega
    simp [h1]
    refine Or.inl ?_
    push_cast [Nat.cast_sub hn1]
    ring
  have hfull : (arange s t p ++ [(arange s t p).getLastD 0 + p]).getLast?
      = some (s + (n : ℚ) * p) := by
    rw [hEdges, List.getLast?_eq_getElem?, List.length_map, List.length_range,
      List.getElem?_map, List.getElem?_range (by omega : n + 1 - 1 < n + 1)]
    simp
  refine ⟨(List.range n).map (fun k : ℕ => s + ((k + 1 : ℕ) : ℚ) * p),
    s + (n : ℚ) * p, hane, hdec, hesl, ?_, ?_, ?_, ?_⟩
  · rw [← hdec]
    exact hfull
  · rw [← hdec, hEdges, List.chain'_map,
      show n + 1 = Nat.succ n from rfl, List.chain'_range_succ]
    intro k _
    push_cast
    ring
  · have h1 : (t - s) / p ≤ ((⌈(t - s) / p⌉ : ℤ) : ℚ) := Int.le_ceil _
    rw [← hcast] at h1
    have h2 : t - s ≤ (n : ℚ) * p := (div_le_iff₀ hp).mp h1
    linarith
  · have h1 : ((⌈(t - s) / p⌉ : ℤ) : ℚ) < (t - s) / p + 1 := Int.ceil_lt_add_one _
    rw [← hcast] at h1
    have h2 : (n : ℚ) * p < ((t - s) / p + 1) * p :=
      mul_lt_mul_of_pos_right h1 hp
    rw [add_mul, div_mul_cancel₀ _ hp.ne', one_mul] at h2
    linarith

/-- C2, counterexample: for `data = [1,2,3,4,5]` and `binsize = 1` the
produced edges are `[1,2,3,4,5]` (five edges, spanning `[min, max]`),
not the claimed `[1,2,3,4,5,6]`; `np.arange(vmin, vmax, binsize)` stops
before `vmax` and only one extra edge is appended.  The counts are
`[1,1,1,2]` (the last bin is right-closed) and they do sum to 5. -/
theorem histogram_edges_example_cex :
    histogram [1, 2, 3, 4, 5] 1 = .ok ([1, 1, 1, 2], [1, 2, 3, 4, 5], 1) ∧
    ([1, 2, 3, 4, 5] : List ℚ) ≠ [1, 2, 3, 4, 5, 6] := by
  constructor
  · have hmin : List.foldl min (1 : ℚ) [1, 2, 3, 4, 5] = 1 := by
      norm_num [List.foldl_cons, List.foldl_nil, min_def]
    have hmax : List.foldl max (1 : ℚ) [1, 2, 3, 4, 5] = 5 := by
      norm_num [List.foldl_cons, List.foldl_nil, max_def]
    have hbins : arange 1 5 1 = [1, 2, 3, 4] := by
      rw [arange_eq_map, show (⌈(((5 : ℚ)) - 1) / 1⌉) = (4 : ℤ) by norm_num]
      show (List.range 4).map _ = _
      simp only [List.range_succ, List.range_zero, List.map_append,
        List.map_cons, List.map_nil, List.nil_append, List.cons_append]
      norm_num
    simp only [histogram]
    rw [hmin, hmax, if_neg (by norm_num : ¬((1 : ℚ) = 5)), hbins]
    rw [if_neg (by simp : ¬(([1, 2, 3, 4] : List ℚ).isEmpty = true))]
    rw [show (([1, 2, 3, 4] : List ℚ).getLastD 0) = 4 from rfl]
    rw [show ((4 : ℚ) + 1) = 5 by norm_num]
    show Except.ok (npHistogram _ [1, 2, 3, 4, 5], _, _) = _
    norm_num [npHistogram, List.filter]
  · intro h
    have := congrArg List.length h
    simp at this

/-- C2, amended: for every non-empty data list and positive binsize,
`histogram` succeeds and returns edges that start at `min(data)`, march
in steps of exactly `binsize`, and end at the first grid point `E` at or
past the (degenerate-adjusted) maximum — so the span is
`[min, max + binsize)`, not the claimed closed `[min, max + binsize]`
endpoint — and no sample is lost: the counts sum to the number of
samples. -/
theorem histogram_bins_amended (data : List ℚ) (binsize : ℚ)
    (hne : data ≠ []) (hb : 0 < binsize) :
    ∃ counts edges m M,
      histogram data binsize = .ok (counts, edges, binsize) ∧
      m ∈ data ∧ (∀ x ∈ data, m ≤ x) ∧
      M ∈ data ∧ (∀ x ∈ data, x ≤ M) ∧
      edges.head? = some m ∧
      List.Chain' (fun a b => b = a + binsize) edges ∧
      (∃ E, edges.getLast? = some E ∧
        (if m = M then m + 1 else M) ≤ E ∧
        E < (if m = M then m + 1 else M) + binsize) ∧
      counts.sum = data.length := by
  obtain ⟨d0, rest, rfl⟩ := List.exists_cons_of_ne_nil hne
  set vmin := (d0 :: rest).foldl min d0 with hvmin
  set vmax0 := (d0 :: rest).foldl max d0 with hvmax0
  set vmax := (if vmin = vmax0 then vmin + 1 else vmax0) with hvmax
  set A := arange vmin vmax binsize with hA
  set edges := A ++ [A.getLastD 0 + binsize] with hedges
  have hmM0 : vmin ≤ vmax0 := le_trans (foldl_min_le _ _) (le_foldl_max _ _)
  have hsv : vmin < vmax := by
    rcases eq_or_ne vmin vmax0 with h | h
    · rw [hvmax, if_pos h]; linarith
    · rw [hvmax, if_neg h]; exact lt_of_le_of_ne hmM0 h
  have hM0v : vmax0 ≤ vmax := by
    rcases eq_or_ne vmin vmax0 with h | h
    · rw [hvmax, if_pos h, ← h]; linarith
    · rw [hvmax, if_neg h]
  obtain ⟨es, E, hane, hdec, hesl, hfull, hchain, htE, hEtp⟩ :=
    edges_spec vmin vmax binsize hsv hb
  rw [← hA] at hane hdec
  have hok : histogram (d0 :: rest) binsize
      = .ok (npHistogram (d0 :: rest) edges, edges, binsize) := by
    show (if A.isEmpty then (.error .rangeError : Except HistError _)
        else .ok (npHistogram (d0 :: rest) (A ++ [A.getLastD 0 + binsize]),
          A ++ [A.getLastD 0 + binsize], binsize)) = _
    rw [if_neg (by simpa [List.isEmpty_iff] using hane)]
  have hmem_min : vmin ∈ d0 :: rest := by
    rcases foldl_min_mem (d0 :: rest) d0 with h | h
    · rw [hvmin, h]; exact List.mem_cons_self d0 rest
    · exact h
  have hmem_max : vmax0 ∈ d0 :: rest := by
    rcases foldl_max_mem (d0 :: rest) d0 with h | h
    · rw [hvmax0, h]; exact List.mem_cons_self d0 rest
    · exact h
  refine ⟨npHistogram (d0 :: rest) edges, edges, vmin, vmax0, hok,
    hmem_min, fun x hx => foldl_min_le_mem _ _ x hx,
    hmem_max, fun x hx => mem_le_foldl_max _ _ x hx,
    ?_, ?_, ⟨E, ?_, ?_, ?_⟩, ?_⟩
  · rw [hedges, hdec]; rfl
  · rw [hedges, hdec]; exact hchain
  · rw [hedges, hdec]; exact hfull
  · exact htE
  · exact hEtp
  · rw [hedges, hdec]
    refine sum_npHistogram_eq_length (d0 :: rest) es vmin E hesl
      (hchain.imp (fun a b hab => by rw [hab]; linarith)) ?_
    intro x hx
    exact ⟨foldl_min_le_mem _ _ x hx,
      le_trans (le_trans (mem_le_foldl_max _ _ x hx) hM0v) htE⟩

/-- C2, witness for `histogram_bins_amended` at `data = [1,2,3,4,5]`,
`binsize = 1`. -/
theorem histogram_bins_amended_witness :
    (([1, 2, 3, 4, 5] : List ℚ) ≠ []) ∧ ((0 : ℚ) < 1) ∧
    (∃ counts edges m M,
      histogram [1, 2, 3, 4, 5] 1 = .ok (counts, edges, 1) ∧
      m ∈ ([1, 2, 3, 4, 5] : List ℚ) ∧
      (∀ x ∈ ([1, 2, 3, 4, 5] : List ℚ), m ≤ x) ∧
      M ∈ ([1, 2, 3, 4, 5] : List ℚ) ∧
      (∀ x ∈ ([1, 2, 3, 4, 5] : List ℚ), x ≤ M) ∧
      edges.head? = some m ∧
      List.Chain' (fun a b => b = a + 1) edges ∧
      (∃ E, edges.getLast? = some E ∧
        (if m = M then m + 1 else M) ≤ E ∧
        E < (if m = M then m + 1 else M) + 1) ∧
      counts.sum = ([1, 2, 3, 4, 5] : List ℚ).length) :=
  ⟨List.cons_ne_nil _ _, one_pos,
    histogram_bins_amended [1, 2, 3, 4, 5] 1 (List.cons_ne_nil _ _) one_pos⟩

/-- C3, counterexample: a 2-row, 3-column position matrix is rejected
with `ValueError("pos should have 2 columns")`, while the claim says the
MSD engine succeeds on exactly-3-column input. -/
theorem msd_three_columns_cex :
    msd [[some 0, some 0, some 0], [some 1, some 1, some 1]] 25
      = .error .badColumns := by
  rfl

/-- C3, amended: on a uniform matrix with `c` columns, `msd` succeeds
exactly when `c = 2` and there are at least 2 rows; every other shape
(including 3 columns) fails with a `ValueError`-equivalent. -/
theorem msd_precondition_amended (pos : List (List (Option ℚ))) (c : ℕ)
    (hc : ∀ r ∈ pos, r.length = c) (limit : ℕ) :
    (msd pos limit).isOk = true ↔ (c = 2 ∧ 2 ≤ pos.length) := by
  cases pos with
  | nil =>
    constructor
    · intro h
      rw [show msd ([] : List (List (Option ℚ))) limit = .error .badColumns
        from rfl] at h
      exact absurd h (by decide)
    · rintro ⟨-, h⟩; simp at h
  | cons r t =>
    have hr : r.length = c := hc r (List.mem_cons_self r t)
    rw [msd]
    simp only [List.headD_cons, hr]
    rcases eq_or_ne c 2 with rfl | h2
    · rw [if_neg (by omega)]
      rcases lt_or_ge (r :: t).length 2 with hlen | hlen
      · rw [if_pos hlen]
        constructor
        · intro h; exact absurd h (by decide)
        · rintro ⟨-, hge⟩; omega
      · rw [if_neg (by omega)]
        exact ⟨fun _ => ⟨rfl, hlen⟩, fun _ => rfl⟩
    · rw [if_pos (by omega)]
      constructor
      · intro h; exact absurd h (by decide)
      · rintro ⟨hc2, -⟩; exact absurd hc2 h2

/-- C3, witness for `msd_precondition_amended` on a 2×2 matrix. -/
theorem msd_precondition_amended_witness :
    (∀ r ∈ [[some (0:ℚ), some 0], [some 1, some 1]], r.length = 2) ∧
    ((msd [[some (0:ℚ), some 0], [some 1, some 1]] 25).isOk = true ↔
      (2 = 2 ∧ 2 ≤ ([[some (0:ℚ), some 0], [some 1, some 1]]).length)) :=
  ⟨by decide, msd_precondition_amended _ 2 (by decide) 25⟩

theorem diffs_col (pos : List (List (Option ℚ))) (c : ℕ)
    (hw : ∀ r ∈ pos, r.length = c) (ax : ℕ) (hax : ax < c) (lt : ℕ) :
    ((List.range (pos.length - lt)).map
        (fun j => List.zipWith optSub (pos.getD (lt + j) []) (pos.getD j []))).map
      (fun r => r.getD ax none)
    = colDisplacement pos ax lt := by
  apply List.ext_getElem
  · simp only [List.length_map, List.length_range, colDisplacement,
      List.length_zipWith, List.length_drop, List.length_take, column,
      List.length_map]
    omega
  · intro j h1 h2
    simp only [List.length_map, List.length_range] at h1
    have hj1 : lt + j < pos.length := by omega
    have hj0 : j < pos.length := by omega
    have hr1 : pos[lt + j].length = c := hw _ (List.getElem_mem hj1)
    have hr0 : pos[j].length = c := hw _ (List.getElem_mem hj0)
    have hb1 : ax < pos[lt + j].length := by rw [hr1]; exact hax
    have hb0 : ax < pos[j].length := by rw [hr0]; exact hax
    rw [List.getElem_map, List.getElem_map, List.getElem_range]
    rw [List.getD_eq_getElem pos [] hj1, List.getD_eq_getElem pos [] hj0]
    have hzip : ax < (List.zipWith optSub pos[lt + j] pos[j]).length := by
      rw [List.length_zipWith]
      exact lt_min hb1 hb0
    rw [List.getD_eq_getElem _ none hzip, List.getElem_zipWith]
    simp only [colDisplacement, column, List.getElem_zipWith, List.getElem_drop,
      List.getElem_take, List.getElem_map]
    rw [List.getD_eq_getElem _ none hb1, List.getD_eq_getElem _ none hb0]

theorem msdRow_drop_two (pos : List (List (Option ℚ))) (c : ℕ)
    (hw : ∀ r ∈ pos, r.length = c) (h2 : 2 ≤ c) (lt : ℕ) :
    (msdRow pos lt).drop 2
      = [nanmean ((colDisplacement pos 0 lt).map optSq),
         nanmean ((colDisplacement pos 1 lt).map optSq)] := by
  show [nanmean (((List.range (pos.length - lt)).map
        (fun j => List.zipWith optSub (pos.getD (lt + j) []) (pos.getD j []))).map
      (fun r => optSq (r.getD 0 none))),
    nanmean (((List.range (pos.length - lt)).map
        (fun j => List.zipWith optSub (pos.getD (lt + j) []) (pos.getD j []))).map
      (fun r => optSq (r.getD 1 none)))] = _
  rw [show (fun r : List (Option ℚ) => optSq (r.getD 0 none))
      = optSq ∘ (fun r : List (Option ℚ) => r.getD 0 none) from rfl,
    show (fun r : List (Option ℚ) => optSq (r.getD 1 none))
      = optSq ∘ (fun r : List (Option ℚ) => r.getD 1 none) from rfl,
    ← List.map_map (g := optSq), ← List.map_map (g := optSq),
    diffs_col pos c hw 0 (by omega) lt, diffs_col pos c hw 1 (by omega) lt]

/-- C4: on every valid position matrix (2 uniform columns, at least two
rows), `msd` succeeds with a series of length `L = min(limit, N−1)`
whose value at lag `τ = k + 1` is the skipna sum, over the two axes, of
the NaN-ignoring mean of the squared per-axis displacement
`pos[τ:] − pos[:-τ]`. -/
theorem msd_values_spec (pos : List (List (Option ℚ)))
    (hw : ∀ r ∈ pos, r.length = 2) (hrows : 2 ≤ pos.length) (limit : ℕ) :
    ∃ s, msd pos limit = .ok s ∧
      s.length = min limit (pos.length - 1) ∧
      ∀ (k : ℕ), k < s.length →
        s.getD k 0
          = nanSum [nanmean ((colDisplacement pos 0 (k + 1)).map optSq),
              nanmean ((colDisplacement pos 1 (k + 1)).map optSq)] := by
  obtain ⟨r, t, rfl⟩ := List.exists_cons_of_ne_nil
    (show pos ≠ [] from fun h => by rw [h] at hrows; simp at hrows)
  have hr : r.length = 2 := hw r (List.mem_cons_self r t)
  refine ⟨(List.range (min limit ((r :: t).length - 1))).map
      (fun k => nanSum ((msdRow (r :: t) (k + 1)).drop 2)), ?_, ?_, ?_⟩
  · rw [msd]
    simp only [List.headD_cons, hr]
    rw [if_neg (by omega), if_neg (by omega)]
  · rw [List.length_map, List.length_range]
  · intro k hk
    rw [List.length_map, List.length_range] at hk
    rw [List.getD_eq_getElem _ _ (by simpa using hk), List.getElem_map,
      List.getElem_range, msdRow_drop_two (r :: t) 2 hw (by omega) (k + 1)]

/-- C4, witness for `msd_values_spec` on the matrix
`[[0,0],[1,1],[3,3]]` with the default limit 25. -/
theorem msd_values_spec_witness :
    (∀ r ∈ [[some (0 : ℚ), some 0], [some 1, some 1], [some 3, some 3]],
      r.length = 2) ∧
    (2 ≤ ([[some (0 : ℚ), some 0], [some 1, some 1], [some 3, some 3]]).length) ∧
    (∃ s, msd [[some (0 : ℚ), some 0], [some 1, some 1], [some 3, some 3]] 25
        = .ok s ∧
      s.length = min 25
        (([[some (0 : ℚ), some 0], [some 1, some 1], [some 3, some 3]]).length - 1) ∧
      ∀ (k : ℕ), k < s.length →
        s.getD k 0
          = nanSum [nanmean ((colDisplacement
                [[some (0 : ℚ), some 0], [some 1, some 1], [some 3, some 3]]
                0 (k + 1)).map optSq),
              nanmean ((colDisplacement
                [[some (0 : ℚ), some 0], [some 1, some 1], [some 3, some 3]]
                1 (k + 1)).map optSq)]) :=
  ⟨by decide, by decide, msd_values_spec _ (by decide) (by decide) 25⟩

/-- C5: `basic_msd_fit` converts lag index `i` to time `tᵢ = i·delta`
(for `i = 1..N`), hands the fit model, those times, the MSD values, the
initial guess `(0.001, 0.01)` and the `maxfev` cap to the external
least-squares primitive, and returns its first parameter as `D`, its
second as `α`, and the curve `t ↦ 4·D·t^α` evaluated at each `tᵢ`.
`curveFit` stands for `scipy.optimize.curve_fit`. -/
theorem basic_msd_fit_spec (power : ℚ → ℚ → ℚ)
    (curveFit : FitFn → List ℚ → List ℚ → ℚ × ℚ → ℕ → ℚ × ℚ)
    (msd_y : List ℚ) (delta : ℚ) (maxfev : ℕ) :
    (basic_msd_fit power curveFit msd_y delta (msd_fit_function power) maxfev).index
        = (List.range msd_y.length).map (fun i => ((i : ℚ) + 1) * delta) ∧
    (basic_msd_fit power curveFit msd_y delta (msd_fit_function power) maxfev).diffusion_coefficient
        = (curveFit (msd_fit_function power)
            ((List.range msd_y.length).map (fun i => ((i : ℚ) + 1) * delta))
            msd_y (1 / 1000, 1 / 100) maxfev).1 ∧
    (basic_msd_fit power curveFit msd_y delta (msd_fit_function power) maxfev).alpha
        = List.replicate msd_y.length
            (curveFit (msd_fit_function power)
              ((List.range msd_y.length).map (fun i => ((i : ℚ) + 1) * delta))
              msd_y (1 / 1000, 1 / 100) maxfev).2 ∧
    (basic_msd_fit power curveFit msd_y delta (msd_fit_function power) maxfev).fit
        = ((List.range msd_y.length).map (fun i => ((i : ℚ) + 1) * delta)).map
            (fun t => 4 *
              (curveFit (msd_fit_function power)
                ((List.range msd_y.length).map (fun i => ((i : ℚ) + 1) * delta))
                msd_y (1 / 1000, 1 / 100) maxfev).1 *
              power t
                (curveFit (msd_fit_function power)
                  ((List.range msd_y.length).map (fun i => ((i : ℚ) + 1) * delta))
                  msd_y (1 / 1000, 1 / 100) maxfev).2) := by
  refine ⟨rfl, rfl, rfl, ?_⟩
  simp only [basic_msd_fit, msd_fit_function]

/-! ### Helper lemmas for C6: components of the labeling graph -/

theorem mem_scanCells {h w : ℕ} (c : Cell h w) : c ∈ scanCells h w := by
  obtain ⟨i, j⟩ := c
  unfold scanCells
  rw [List.mem_flatMap]
  exact ⟨i, List.mem_finRange i, List.mem_map.mpr ⟨j, List.mem_finRange j, rfl⟩⟩

theorem reach_fg {h w : ℕ} {m : Fin h → Fin w → ℕ} {c d : Cell h w}
    (r : (pixelGraph m).Reachable c d) : c = d ∨ m c.1 c.2 ≠ 0 := by
  rcases r with ⟨p⟩
  cases p with
  | nil => exact Or.inl rfl
  | cons hadj _ => exact Or.inr hadj.2.1

theorem mem_componentsList {h w : ℕ} {m : Fin h → Fin w → ℕ}
    {comp : (pixelGraph m).ConnectedComponent} :
    comp ∈ componentsList m
      ↔ ∃ c : Cell h w, m c.1 c.2 ≠ 0
          ∧ (pixelGraph m).connectedComponentMk c = comp := by
  unfold componentsList
  rw [List.mem_dedup, List.mem_map]
  constructor
  · rintro ⟨c, hc, rfl⟩
    rw [List.mem_filter] at hc
    exact ⟨c, by simpa using hc.2, rfl⟩
  · rintro ⟨c, hc, rfl⟩
    exact ⟨c, List.mem_filter.mpr ⟨mem_scanCells c, by simpa using hc⟩, rfl⟩

theorem nodup_componentsList {h w : ℕ} (m : Fin h → Fin w → ℕ) :
    (componentsList m).Nodup :=
  List.nodup_dedup _

theorem foregroundComponents_eq_toFinset {h w : ℕ} (m : Fin h → Fin w → ℕ) :
    foregroundComponents m = (componentsList m).toFinset := by
  ext comp
  rw [List.mem_toFinset, mem_componentsList]
  unfold foregroundComponents
  rw [Finset.mem_image]
  constructor
  · rintro ⟨c, hc, rfl⟩
    exact ⟨c, (Finset.mem_filter.mp hc).2, rfl⟩
  · rintro ⟨c, hc, rfl⟩
    exact ⟨c, Finset.mem_filter.mpr ⟨Finset.mem_univ c, hc⟩, rfl⟩

theorem card_foregroundComponents {h w : ℕ} (m : Fin h → Fin w → ℕ) :
    (foregroundComponents m).card = (componentsList m).length := by
  rw [foregroundComponents_eq_toFinset,
    List.toFinset_card_of_nodup (nodup_componentsList m)]

theorem measureLabel_fg {h w : ℕ} {m : Fin h → Fin w → ℕ} {c : Cell h w}
    (hc : m c.1 c.2 ≠ 0) :
    measureLabel m c.1 c.2
      = (componentsList m).indexOf ((pixelGraph m).connectedComponentMk c)
          + 1 := by
  unfold measureLabel
  rw [if_pos hc]

theorem measureLabel_bg {h w : ℕ} {m : Fin h → Fin w → ℕ} {c : Cell h w}
    (hc : ¬(m c.1 c.2 ≠ 0)) : measureLabel m c.1 c.2 = 0 := by
  unfold measureLabel
  rw [if_neg hc]

theorem indexOf_mk_lt {h w : ℕ} {m : Fin h → Fin w → ℕ} {c : Cell h w}
    (hc : m c.1 c.2 ≠ 0) :
    (componentsList m).indexOf ((pixelGraph m).connectedComponentMk c)
      < (componentsList m).length :=
  List.indexOf_lt_length.mpr (mem_componentsList.mpr ⟨c, hc, rfl⟩)

theorem measureLabel_le {h w : ℕ} (m : Fin h → Fin w → ℕ) (c : Cell h w) :
    measureLabel m c.1 c.2 ≤ (componentsList m).length := by
  by_cases hc : m c.1 c.2 ≠ 0
  · rw [measureLabel_fg hc]
    have := indexOf_mk_lt hc
    omega
  · rw [measureLabel_bg hc]
    omega

theorem label_present {h w : ℕ} (m : Fin h → Fin w → ℕ) (i : ℕ)
    (hi : i < (componentsList m).length) :
    ∃ c : Cell h w, measureLabel m c.1 c.2 = i + 1 := by
  have hmem : (componentsList m)[i] ∈ componentsList m := List.getElem_mem hi
  obtain ⟨c, hc, hmk⟩ := mem_componentsList.mp hmem
  refine ⟨c, ?_⟩
  rw [measureLabel_fg hc, hmk,
    List.indexOf_getElem (nodup_componentsList m) i hi]

theorem maxLabel_measureLabel {h w : ℕ} (m : Fin h → Fin w → ℕ) :
    maxLabel (measureLabel m) = (componentsList m).length := by
  apply le_antisymm
  · exact Finset.sup_le (fun c _ => measureLabel_le m c)
  · by_cases hK : (componentsList m).length = 0
    · omega
    · obtain ⟨c, hc⟩ := label_present m ((componentsList m).length - 1) (by omega)
      have hle : measureLabel m c.1 c.2 ≤ maxLabel (measureLabel m) :=
        Finset.le_sup (f := fun c : Cell h w => measureLabel m c.1 c.2)
          (Finset.mem_univ c)
      omega

theorem labelsOf_measureLabel {h w : ℕ} (m : Fin h → Fin w → ℕ) :
    labelsOf (measureLabel m)
      = (List.range (componentsList m).length).map (fun k => k + 1) := by
  unfold labelsOf
  rw [maxLabel_measureLabel]
  apply List.filter_eq_self.mpr
  intro ℓ hℓ
  obtain ⟨k, hk, rfl⟩ := List.mem_map.mp hℓ
  rw [List.mem_range] at hk
  simpa using label_present m k hk

theorem regionCells_measureLabel {h w : ℕ} (m : Fin h → Fin w → ℕ) (i : ℕ)
    (hi : i < (componentsList m).length) :
    regionCells (measureLabel m) (i + 1)
      = Finset.univ.filter (fun c : Cell h w =>
          (pixelGraph m).connectedComponentMk c = (componentsList m)[i]) := by
  ext c
  simp only [regionCells, Finset.mem_filter, Finset.mem_univ, true_and]
  constructor
  · intro hc
    by_cases hfg : m c.1 c.2 ≠ 0
    · rw [measureLabel_fg hfg] at hc
      have hidx : (componentsList m).indexOf
          ((pixelGraph m).connectedComponentMk c) = i := by omega
      subst hidx
      exact (List.getElem_indexOf hi).symm
    · rw [measureLabel_bg hfg] at hc
      omega
  · intro hmkc
    have hmem : (componentsList m)[i] ∈ componentsList m := List.getElem_mem hi
    obtain ⟨c₀, hc₀, hmk₀⟩ := mem_componentsList.mp hmem
    have hreach : (pixelGraph m).Reachable c c₀ :=
      SimpleGraph.ConnectedComponent.exact (by rw [hmkc, ← hmk₀])
    have hfg : m c.1 c.2 ≠ 0 := by
      rcases reach_fg hreach with rfl | hne
      · exact hc₀
      · exact hne
    rw [measureLabel_fg hfg, hmkc,
      List.indexOf_getElem (nodup_componentsList m) i hi]

/-- C6, counterexample: the 1×2 mask `[[1, 2]]` has one foreground
component when all label values are treated as a single foreground (the
claim's reading), but `measure.label` joins only equal-valued neighbors,
so the measured table has two rows, not one. -/
theorem region_measurement_single_foreground_cex :
    (regionprops_table
        (measureLabel (fun (_ : Fin 1) (j : Fin 2) => j.val + 1))
        (fun _ _ => (0 : ℚ))).length = 2 ∧
    singleForegroundComponentCount
        (fun (_ : Fin 1) (j : Fin 2) => j.val + 1) = 1 ∧
    (2 : ℕ) ≠ 1 :=
  ⟨by decide, by decide, by decide⟩

/-- C6, amended: Region Measurement (the `measure.label` relabeling of
line 118 followed by `regionprops_table`, lines 63–68) emits exactly one
row per connected component of *equal-valued* nonzero pixels
(8-connectivity) — not per single-foreground component — the row areas
are, in order of first appearance, the pixel counts of those
components, and each row's derived radius is `√(area/π)`. -/
theorem region_measurement_components_amended {h w : ℕ}
    (m : Fin h → Fin w → ℕ) (img : Fin h → Fin w → ℚ) :
    (regionprops_table (measureLabel m) img).length
        = (foregroundComponents m).card ∧
    (regionprops_table (measureLabel m) img).map (fun r => r.area)
        = (componentsList m).map (fun comp =>
            (Finset.univ.filter (fun c : Cell h w =>
              (pixelGraph m).connectedComponentMk c = comp)).card) ∧
    (∀ r ∈ regionprops_table (measureLabel m) img,
      radius r = Real.sqrt ((r.area : ℝ) / Real.pi)) := by
  have hlen : (regionprops_table (measureLabel m) img).length
      = (componentsList m).length := by
    unfold regionprops_table
    rw [List.length_map, labelsOf_measureLabel, List.length_map,
      List.length_range]
  refine ⟨by rw [hlen, card_foregroundComponents], ?_, fun r _ => rfl⟩
  apply List.ext_getElem
  · rw [List.length_map, hlen, List.length_map]
  · intro i h1 h2
    rw [List.length_map, hlen] at h1
    simp only [regionprops_table, labelsOf_measureLabel, List.getElem_map,
      List.getElem_range]
    rw [regionCells_measureLabel m i h1]

/-- C7, counterexample: a 1-D image/mask pair (`ndim = 1 ≠ 2`) is not
rejected by the dimensionality guard (which only checks `ndim > 2`): it
is handed on to the measurement library instead of producing the
warn-and-return-nothing outcome the claim requires. -/
theorem frame_guard_one_dim_cex :
    (NDArr.mk [3] ([1, 1, 1] : List ℕ)).ndim ≠ 2 ∧
    get_frame_regions_properties 0 ⟨[3], [0, 0, 0]⟩ ⟨[3], ([1, 1, 1] : List ℕ)⟩
      ≠ .warned :=
  ⟨by decide, by decide⟩

/-- C7, amended: `get_frame_regions_properties` warns and returns
nothing exactly when the image or the mask has more than 2 dimensions;
a matching 2-D pair is measured, and lower-dimensional input slips past
the guard into the measurement library. -/
theorem frame_guard_amended (frame : ℕ) (image : NDArr ℚ)
    (labels : NDArr ℕ) :
    (get_frame_regions_properties frame image labels = .warned
      ↔ (2 < image.ndim ∨ 2 < labels.ndim)) ∧
    (∀ (hi wi : ℕ) (v1 : List ℚ) (v2 : List ℕ),
      get_frame_regions_properties frame ⟨[hi, wi], v1⟩ ⟨[hi, wi], v2⟩
        = .measured (frame_rows frame
            ((NDArr.mk [hi, wi] v1).grid2D 0 hi wi)
            ((NDArr.mk [hi, wi] v2).grid2D 0 hi wi))) := by
  constructor
  · obtain ⟨s1, v1⟩ := image
    obtain ⟨s2, v2⟩ := labels
    simp only [get_frame_regions_properties, NDArr.ndim]
    by_cases h1 : 2 < s1.length
    · simp [h1]
    · by_cases h2 : 2 < s2.length
      · simp [h1, h2]
      · rw [if_neg h1, if_neg h2]
        constructor
        · intro hc
          exfalso
          revert hc
          rcases s1 with _ | ⟨a, _ | ⟨b, _ | t1⟩⟩ <;>
            rcases s2 with _ | ⟨p, _ | ⟨q, _ | t2⟩⟩ <;>
              simp_all <;> split_ifs <;> simp_all
        · rintro (hgt | hgt) <;> omega
  · intro hi wi v1 v2
    simp [get_frame_regions_properties, NDArr.ndim]

/-- The `for` loop of `get_timeseries_regions_properties` over a
non-empty list concatenates the per-item tables in order. -/
theorem foldl_concat_eq_flatMap {α β : Type} (f : α → List β) :
    ∀ (l : List α) (init : List β),
      l.foldl (concatStep f) (some init) = some (init ++ l.flatMap f) := by
  intro l
  induction l with
  | nil => intro init; simp
  | cons p rest ih =>
    intro init
    rw [List.foldl_cons]
    show rest.foldl _ (some (init ++ f p)) = _
    rw [ih (init ++ f p)]
    simp

theorem foldl_concat_ne_nil {α β : Type} (f : α → List β) (l : List α)
    (hne : l ≠ []) :
    l.foldl (concatStep f) none = some (l.flatMap f) := by
  obtain ⟨p, rest, rfl⟩ := List.exists_cons_of_ne_nil hne
  rw [List.foldl_cons]
  show rest.foldl _ (some (f p)) = _
  rw [foldl_concat_eq_flatMap f rest (f p)]
  simp

/-- C8, counterexample: on a zero-frame stack the aggregator does not
return the (empty) concatenation of per-frame tables; the loop never
binds `result` and the call fails. -/
theorem timeseries_empty_stack_cex :
    get_timeseries_regions_properties (h := 1) (w := 1)
        (Stack.frames []) (Stack.frames [])
      = .error .unboundLocalError ∧
    get_timeseries_regions_properties (h := 1) (w := 1)
        (Stack.frames []) (Stack.frames [])
      ≠ .ok [] :=
  ⟨rfl, by decide⟩

/-- C8, amended: for stacks yielding at least one zipped frame pair, the
aggregator measures each frame (mask relabeled by `measure.label`) with
its 0-based index as the `frame` value and returns the in-order
concatenation of the per-frame tables; a single 2-D pair is processed
as a 1-frame stack; and the `frame` column is first in the per-frame
column order.  (A zero-frame stack instead fails, see the
counterexample.) -/
theorem timeseries_concat_amended {h w : ℕ} (images : Stack ℚ h w)
    (masks : Stack ℕ h w)
    (hne : images.toFrames.zip masks.toFrames ≠ []) :
    (get_timeseries_regions_properties images masks
      = .ok ((images.toFrames.zip masks.toFrames).enum.flatMap
          (fun p => frame_rows p.1 p.2.1 (measureLabel p.2.2)))) ∧
    (∀ (im : Fin h → Fin w → ℚ) (lab : Fin h → Fin w → ℕ),
      get_timeseries_regions_properties (Stack.single im) (Stack.single lab)
        = .ok (frame_rows 0 im (measureLabel lab))) ∧
    frame_columns.head? = some "frame" := by
  refine ⟨?_, fun im lab => rfl, rfl⟩
  unfold get_timeseries_regions_properties
  dsimp only
  have henum : (images.toFrames.zip masks.toFrames).enum ≠ [] := by
    intro hcontra
    have := congrArg List.length hcontra
    rw [List.enum_length] at this
    exact hne (List.length_eq_zero.mp this)
  rw [foldl_concat_ne_nil _ _ henum]

/-- C8, witness for `timeseries_concat_amended` on a one-frame 1×1
stack. -/
theorem timeseries_concat_amended_witness :
    ((Stack.frames [fun (_ : Fin 1) (_ : Fin 1) => (0 : ℚ)]).toFrames.zip
        (Stack.frames [fun (_ : Fin 1) (_ : Fin 1) => (1 : ℕ)]).toFrames
      ≠ []) ∧
    ((get_timeseries_regions_properties
        (Stack.frames [fun (_ : Fin 1) (_ : Fin 1) => (0 : ℚ)])
        (Stack.frames [fun (_ : Fin 1) (_ : Fin 1) => (1 : ℕ)])
      = .ok (((Stack.frames
            [fun (_ : Fin 1) (_ : Fin 1) => (0 : ℚ)]).toFrames.zip
          (Stack.frames
            [fun (_ : Fin 1) (_ : Fin 1) => (1 : ℕ)]).toFrames).enum.flatMap
          (fun p => frame_rows p.1 p.2.1 (measureLabel p.2.2)))) ∧
    (∀ (im : Fin 1 → Fin 1 → ℚ) (lab : Fin 1 → Fin 1 → ℕ),
      get_timeseries_regions_properties (Stack.single im) (Stack.single lab)
        = .ok (frame_rows 0 im (measureLabel lab))) ∧
    frame_columns.head? = some "frame") :=
  ⟨List.cons_ne_nil _ _,
    timeseries_concat_amended _ _ (List.cons_ne_nil _ _)⟩

/-- C10: when the zipped frame list is empty (e.g. a zero-frame image
stack), the loop body of `get_timeseries_regions_properties` never runs,
`result` is never bound, and the call fails with `UnboundLocalError`
rather than returning an empty table. -/
theorem timeseries_empty_unbound {h w : ℕ} (masks : Stack ℕ h w) :
    get_timeseries_regions_properties (Stack.frames []) masks
      = .error .unboundLocalError :=
  rfl

/-- C9: whatever `fit_function` the caller supplies to `basic_msd_fit`,
the returned `fit` column is evaluated with the default power-law model
`msd_fit_function` at the fitted parameters (first conjunct); with
`fit_function = line` the model actually fitted disagrees with the
returned curve at concrete inputs (second conjunct: the returned curve
value is `4`, while `line` evaluated at the same point and parameters
gives `2`). -/
theorem fit_curve_uses_default_model :
    (∀ (power : ℚ → ℚ → ℚ)
      (curveFit : FitFn → List ℚ → List ℚ → ℚ × ℚ → ℕ → ℚ × ℚ)
      (msd_y : List ℚ) (delta : ℚ) (fit_function : FitFn) (maxfev : ℕ),
      (basic_msd_fit power curveFit msd_y delta fit_function maxfev).fit
        = (basic_msd_fit power curveFit msd_y delta fit_function maxfev).index.map
            (fun t => msd_fit_function power t
              (curveFit fit_function
                ((List.range msd_y.length).map (fun i => ((i : ℚ) + 1) * delta))
                msd_y (1 / 1000, 1 / 100) maxfev).1
              (curveFit fit_function
                ((List.range msd_y.length).map (fun i => ((i : ℚ) + 1) * delta))
                msd_y (1 / 1000, 1 / 100) maxfev).2)) ∧
    ((basic_msd_fit (fun b _ => b) (fun _ _ _ _ _ => (1, 1)) [0] 1 line 1).fit
        = [4] ∧
      line 1 1 1 = 2 ∧ (4 : ℚ) ≠ 2) := by
  refine ⟨fun power curveFit msd_y delta fit_function maxfev => rfl, ?_, ?_, ?_⟩
  · show List.map _ _ = _
    norm_num [List.range_succ, msd_fit_function]
  · norm_num [line]
  · norm_num

end NPT
